import Mathlib

/-!
Verification model of the `letter_trie` crate (`src/src/lib.rs`).

The crate root `lib.rs` declares the trait `LetterTrie`, the enums
`Dataset`, `LetterTrieType`, `LoadMethod`, the snapshot struct `FixedNode`,
the instrumentation struct `CharGetCounter`, and the helpers
`make_vec_char` / `words_from_file`.  The modules `base_letter_trie`,
`no_parent_letter_trie` and `util` referenced by `lib.rs` are not part of
the sources; where their behavior is needed it is modelled from the
specification (each such definition carries a doc comment starting with
"Modelled from the spec:").

Words are modelled as `List Char` (the Rust code works with `Vec<char>`),
file contents as `List String` (one entry per line, as produced by
`BufReader::lines`).
-/

namespace LetterTrie

/-- Modelled from the spec: the trie node of the no-parent variant
(`no_parent_letter_trie`, missing from the sources).  A node holds
`is_word` and a children map from letter to child node; the map is
represented as an association list kept sorted by key (keys unique,
insertion order irrelevant, per the spec invariant).  The node's own
character is the key under which it is stored in its parent. -/
inductive Node where
  | mk (is_word : Bool) (children : List (Char × Node))

def Node.is_word : Node → Bool
  | .mk w _ => w

def Node.children : Node → List (Char × Node)
  | .mk _ cs => cs

/-- Modelled from the spec: a freshly created trie (or node) is empty and
marks no word. -/
def Node.empty : Node := .mk false []

/-- Modelled from the spec: look up or create the child for letter `c` in a
children map and apply `f` to it; a missing child is created as an empty
node.  New keys are placed at their sorted position, existing keys are
updated in place. -/
def updChild (c : Char) (f : Node → Node) : List (Char × Node) → List (Char × Node)
  | [] => [(c, f Node.empty)]
  | (c1, n) :: t =>
    if c < c1 then (c, f Node.empty) :: (c1, n) :: t
    else if c = c1 then (c1, f n) :: t
    else (c1, n) :: updChild c f t

/-- Modelled from the spec: `insert(word)` walks the existing path letter by
letter from the root, looking up or creating each child, and marks the final
node `is_word = true`. -/
def insertW : List Char → Node → Node
  | [], .mk _ cs => .mk true cs
  | c :: r, .mk w cs => .mk w (updChild c (insertW r) cs)

/-- Association-list lookup of the child for letter `c`. -/
def lookupChild (c : Char) : List (Char × Node) → Option Node
  | [] => none
  | (c1, n) :: t => if c = c1 then some n else lookupChild c t

/-- Modelled from the spec: every letter of the path is present, walking
from the given node. -/
def hasPath : Node → List Char → Bool
  | _, [] => true
  | .mk _ cs, c :: r =>
    match lookupChild c cs with
    | none => false
    | some m => hasPath m r

/-- The node reached by walking the given letter path, if every letter is
present. -/
def findNode : Node → List Char → Option Node
  | n, [] => some n
  | .mk _ cs, c :: r =>
    match lookupChild c cs with
    | none => none
    | some m => findNode m r

/-- A word is in the trie when the path exists and its final node is marked
`is_word`. -/
def wordMem (t : Node) (w : List Char) : Bool :=
  match findNode t w with
  | none => false
  | some n => n.is_word

mutual
/-- Total number of nodes of a subtree, the node itself included
(spec section 4.4). -/
def nodeCount : Node → Nat
  | .mk _ cs => 1 + nodeCountCh cs
def nodeCountCh : List (Char × Node) → Nat
  | [] => 0
  | (_, n) :: t => nodeCount n + nodeCountCh t
end

mutual
/-- Number of `is_word` nodes of a subtree, the node itself included
(spec section 4.4). -/
def wordCount : Node → Nat
  | .mk w cs => (if w then 1 else 0) + wordCountCh cs
def wordCountCh : List (Char × Node) → Nat
  | [] => 0
  | (_, n) :: t => wordCount n + wordCountCh t
end

mutual
/-- Longest descendant chain length: 0 for a childless node, otherwise one
more than the maximum child height (spec section 4.4). -/
def heightN : Node → Nat
  | .mk _ [] => 0
  | .mk _ (p :: t) => 1 + heightCh (p :: t)
def heightCh : List (Char × Node) → Nat
  | [] => 0
  | (_, n) :: t => max (heightN n) (heightCh t)
end

/-- The `FixedNode` snapshot struct of `lib.rs` (lines 222-232).  It is a
flat record of eight scalar fields; it stores no children.  The Rust
`String` field `prefix` is modelled as `List Char` and named `pre`. -/
structure FixedNode where
  c : Char
  pre : List Char
  depth : Nat
  is_word : Bool
  child_count : Nat
  node_count : Nat
  word_count : Nat
  height : Nat
deriving DecidableEq, Repr

/-- Modelled from the spec: the root holds a sentinel character never
matched by any real word. -/
def rootChar : Char := ' '

/-- Modelled from the spec: the bottom-up snapshot projection of a subtree,
given the character, letter path from the root and depth of its root node. -/
def toFixedNode (c0 : Char) (pre : List Char) (depth : Nat) (n : Node) : FixedNode :=
  { c := c0
    pre := pre
    depth := depth
    is_word := n.is_word
    child_count := n.children.length
    node_count := nodeCount n
    word_count := wordCount n
    height := heightN n }

/-- Modelled from the spec: `find(prefix)` walks the letters of the prefix
from the root, accumulating the path, and returns a snapshot of the subtree
rooted at the node matching the full prefix, or `None` if any letter along
the path is absent. -/
def findFrom : Node → Char → List Char → Nat → List Char → Option FixedNode
  | n, c0, pre, d, [] => some (toFixedNode c0 pre d n)
  | .mk _ cs, _, pre, d, c :: r =>
    match lookupChild c cs with
    | none => none
    | some m => findFrom m c (pre ++ [c]) (d + 1) r

/-- Modelled from the spec: `find` starting at the root of the trie. -/
def find (t : Node) (p : List Char) : Option FixedNode :=
  findFrom t rootChar [] 0 p

/-- Modelled from the spec: fill a trie by inserting every word of the list
in order. -/
def build (ws : List (List Char)) (t : Node) : Node :=
  ws.foldl (fun acc w => insertW w acc) t

/-- Modelled from the spec: lexicographic comparison of words, used by the
sorting loaders. -/
def wordLe : List Char → List Char → Bool
  | [], _ => true
  | _ :: _, [] => false
  | a :: as, b :: bs => if a < b then true else if b < a then false else wordLe as bs

/-- Modelled from the spec: ordered insertion of a word into a sorted
vector of words. -/
def insertSorted (w : List Char) : List (List Char) → List (List Char)
  | [] => [w]
  | x :: t => if wordLe w x then w :: x :: t else x :: insertSorted w t

/-- Modelled from the spec: sort the vector of words alphabetically. -/
def sortWords (ws : List (List Char)) : List (List Char) :=
  ws.foldr insertSorted []

/-- First letter of a word (the loaders only ever see non-empty words; the
default is the root sentinel). -/
def firstChar (w : List Char) : Char := w.headD rootChar

/-- Modelled from the spec: group consecutively-read words by their first
letter; each run becomes one per-letter buffer, in reading order. -/
def buffers : List (List Char) → List (Char × List (List Char))
  | [] => []
  | w :: t =>
    match buffers t with
    | [] => [(firstChar w, [w])]
    | (c, b) :: rest =>
      if firstChar w = c then (c, w :: b) :: rest
      else (firstChar w, [w]) :: (c, b) :: rest

mutual
/-- Modelled from the spec: merge a freshly built subtrie (second argument)
into an already-partially-built trie (first argument): `is_word` flags are
combined and children with the same letter are folded together recursively;
a letter present in only one side keeps its subtree. -/
def mergeNode : Node → Node → Node
  | .mk w1 cs1, .mk w2 cs2 => .mk (w1 || w2) (mergeCh cs1 cs2)
def mergeCh : List (Char × Node) → List (Char × Node) → List (Char × Node)
  | [], cs2 => cs2
  | p :: t1, [] => p :: t1
  | (c1, n1) :: t1, (c2, n2) :: t2 =>
    if c1 < c2 then (c1, n1) :: mergeCh t1 ((c2, n2) :: t2)
    else if c2 < c1 then (c2, n2) :: mergeCh ((c1, n1) :: t1) t2
    else (c1, mergeNode n1 n2) :: mergeCh t1 t2
end

/-- Modelled from the spec: the standalone single-letter subtrie a parallel
worker builds from one per-letter buffer. -/
def worker (cb : Char × List (List Char)) : Node :=
  build cb.2 Node.empty

/-- Modelled from the spec: the merge phase folds completed worker subtries
into the main trie one at a time, in arrival order. -/
def mergeAll (subs : List Node) : Node :=
  subs.foldl mergeNode Node.empty

/-- The `LetterTrieType` enum of `lib.rs` (lines 134-141). -/
inductive LetterTrieType where
  | Base
  | NoParent

/-- The `LoadMethod` enum of `lib.rs` (lines 143-156). -/
inductive LoadMethod where
  | ReadVecFill
  | VecFill
  | Continuous
  | ContinuousParallel

/-- Modelled from the spec: the four load strategies for the no-parent
variant.  `ReadVecFill` sorts unconditionally; `VecFill` skips the sort
when the caller declares the source pre-sorted; `Continuous` inserts in
reading order; `ContinuousParallel` builds one subtrie per first-letter
buffer and merges them (here in spawn order; completion order is
quantified separately). -/
def loadTrieN : LoadMethod → Bool → List (List Char) → Node
  | .ReadVecFill, _, ws => build (sortWords ws) Node.empty
  | .VecFill, isSorted, ws => build (if isSorted then ws else sortWords ws) Node.empty
  | .Continuous, _, ws => build ws Node.empty
  | .ContinuousParallel, _, ws => mergeAll ((buffers ws).map worker)

/-- Modelled from the spec: the trie node of the parent-tracking variant
(`base_letter_trie`, missing from the sources).  In the shallow embedding
the upward parent chain is rendered as the stored letter path `pre` from
the root to the node, which is what the chain of parent references
determines. -/
inductive BNode where
  | mk (pre : List Char) (is_word : Bool) (children : List (Char × BNode))

def BNode.pre : BNode → List Char
  | .mk p _ _ => p

def BNode.is_word : BNode → Bool
  | .mk _ w _ => w

def BNode.children : BNode → List (Char × BNode)
  | .mk _ _ cs => cs

/-- Modelled from the spec: the empty root of the parent-tracking variant;
its path is empty. -/
def BNode.empty : BNode := .mk [] false []

/-- Modelled from the spec: child update for the parent-tracking variant; a
newly created child records the parent's path extended by its letter. -/
def bupdChild (pre : List Char) (c : Char) (f : BNode → BNode) :
    List (Char × BNode) → List (Char × BNode)
  | [] => [(c, f (BNode.mk (pre ++ [c]) false []))]
  | (c1, n) :: t =>
    if c < c1 then (c, f (BNode.mk (pre ++ [c]) false [])) :: (c1, n) :: t
    else if c = c1 then (c1, f n) :: t
    else (c1, n) :: bupdChild pre c f t

/-- Modelled from the spec: insertion for the parent-tracking variant. -/
def binsertW : List Char → BNode → BNode
  | [], .mk p _ cs => .mk p true cs
  | c :: r, .mk p w cs => .mk p w (bupdChild p c (binsertW r) cs)

mutual
/-- Modelled from the spec: merge for the parent-tracking variant, mirroring
`mergeNode`; the merged node keeps the path of the main-trie side. -/
def bmergeNode : BNode → BNode → BNode
  | .mk p1 w1 cs1, .mk _ w2 cs2 => .mk p1 (w1 || w2) (bmergeCh cs1 cs2)
def bmergeCh : List (Char × BNode) → List (Char × BNode) → List (Char × BNode)
  | [], cs2 => cs2
  | p :: t1, [] => p :: t1
  | (c1, n1) :: t1, (c2, n2) :: t2 =>
    if c1 < c2 then (c1, n1) :: bmergeCh t1 ((c2, n2) :: t2)
    else if c2 < c1 then (c2, n2) :: bmergeCh ((c1, n1) :: t1) t2
    else (c1, bmergeNode n1 n2) :: bmergeCh t1 t2
end

mutual
/-- Forget the stored paths of a parent-tracking trie, yielding the
structure shared by both node models. -/
def strip : BNode → Node
  | .mk _ w cs => .mk w (stripCh cs)
def stripCh : List (Char × BNode) → List (Char × Node)
  | [] => []
  | (c, n) :: t => (c, strip n) :: stripCh t
end

def bbuild (ws : List (List Char)) (t : BNode) : BNode :=
  ws.foldl (fun acc w => binsertW w acc) t

def bworker (cb : Char × List (List Char)) : BNode :=
  bbuild cb.2 BNode.empty

def bmergeAll (subs : List BNode) : BNode :=
  subs.foldl bmergeNode BNode.empty

/-- Modelled from the spec: the four load strategies for the parent-tracking
variant. -/
def loadTrieB : LoadMethod → Bool → List (List Char) → BNode
  | .ReadVecFill, _, ws => bbuild (sortWords ws) BNode.empty
  | .VecFill, isSorted, ws => bbuild (if isSorted then ws else sortWords ws) BNode.empty
  | .Continuous, _, ws => bbuild ws BNode.empty
  | .ContinuousParallel, _, ws => bmergeAll ((buffers ws).map bworker)

/-- Modelled from the spec: the snapshot of a parent-tracking node; the
path and depth come from the stored path (what the parent chain encodes),
the counts from the underlying structure. -/
def toFixedNodeB (c0 : Char) (n : BNode) : FixedNode :=
  { c := c0
    pre := n.pre
    depth := n.pre.length
    is_word := (strip n).is_word
    child_count := n.children.length
    node_count := nodeCount (strip n)
    word_count := wordCount (strip n)
    height := heightN (strip n) }

/-- The trie built by a given variant and load method, projected to the
common structure (the parent-tracking variant through `strip`). -/
def loadNode : LetterTrieType → LoadMethod → Bool → List (List Char) → Node
  | .Base, m, s, ws => strip (loadTrieB m s ws)
  | .NoParent, m, s, ws => loadTrieN m s ws

/-- The root snapshot of the trie built by a given variant and load
method. -/
def loadSnapshot : LetterTrieType → LoadMethod → Bool → List (List Char) → FixedNode
  | .Base, m, s, ws => toFixedNodeB rootChar (loadTrieB m s ws)
  | .NoParent, m, s, ws => toFixedNode rootChar [] 0 (loadTrieN m s ws)

/-- The `CharGetCounter` struct of `lib.rs` (lines 241-245). -/
structure CharGetCounter where
  hit_count : Nat
  miss_count : Nat
deriving DecidableEq, Repr

/-- Rust `CharGetCounter::reset` (`lib.rs` lines 248-252): both counters are set
to zero. -/
def CharGetCounter.reset : CharGetCounter :=
  { hit_count := 0, miss_count := 0 }

/-- Rust `CharGetCounter::record` (`lib.rs` lines 254-261): a hit increments
`hit_count`, a miss increments `miss_count`. -/
def CharGetCounter.record (s : CharGetCounter) (is_hit : Bool) : CharGetCounter :=
  if is_hit then { s with hit_count := s.hit_count + 1 }
  else { s with miss_count := s.miss_count + 1 }

def CharGetCounter.recordMany (s : CharGetCounter) (l : List Bool) : CharGetCounter :=
  l.foldl CharGetCounter.record s

/-- Modelled from the spec: the sequence of per-letter lookup outcomes
produced while inserting one word — a hit for each letter whose child is
found, a miss for each letter whose child is created (every later letter of
the word then walks freshly created empty nodes). -/
def insertTrace : List Char → Node → List Bool
  | [], _ => []
  | c :: r, .mk _ cs =>
    match lookupChild c cs with
    | some m => true :: insertTrace r m
    | none => false :: insertTrace r Node.empty

/-- Modelled from the spec: instrumented insertion — the structural insert
together with the recorded lookup outcomes. -/
def insertCnt (w : List Char) (t : Node) (s : CharGetCounter) : Node × CharGetCounter :=
  (insertW w t, s.recordMany (insertTrace w t))

/-- Modelled from the spec: build a trie word by word while accumulating
the lookup counters. -/
def buildCnt (ws : List (List Char)) (t : Node) (s : CharGetCounter) :
    Node × CharGetCounter :=
  ws.foldl (fun acc w => insertCnt w acc.1 acc.2) (t, s)

/-- Modelled from the spec: the outcome of the parallel merge phase.  Each
entry is one spawned worker: its first letter, and the subtrie it delivered
(`none` when the worker terminated abnormally before delivering).  The
merge detects every failed worker and surfaces the affected letters as a
build-level failure; only when every worker delivered does it produce the
merged trie. -/
def mergeResults (results : List (Char × Option Node)) : Except (List Char) Node :=
  let failed := (results.filter (fun r => r.2.isNone)).map Prod.fst
  if failed.isEmpty then
    Except.ok (mergeAll (results.map (fun r => r.2.getD Node.empty)))
  else
    Except.error failed

/-- Rust `str::trim`: drop whitespace from both ends of a line (lines are
modelled as character lists). -/
def trimChars (l : List Char) : List Char :=
  ((l.dropWhile Char.isWhitespace).reverse.dropWhile Char.isWhitespace).reverse

/-- Rust `str::to_lowercase` restricted to simple per-character lowercasing. -/
def lowerChars (l : List Char) : List Char := l.map Char.toLower

/-- Rust `make_vec_char` (`lib.rs` lines 294-318): every line is trimmed; lines
empty after trimming are skipped; the rest are lowercased and turned into
character vectors, in file order.  The timing/printing side effects of the
original are pure observability and are not modelled. -/
def make_vec_char (lines : List (List Char)) : List (List Char) :=
  lines.foldl
    (fun v line =>
      let line := trimChars line
      if line.isEmpty then v else v ++ [lowerChars line])
    []

/-- Rust `words_from_file` (`lib.rs` lines 320-331): every line is trimmed;
lines empty after trimming are skipped; the rest are kept unchanged, in
file order, with their original letter case. -/
def words_from_file (lines : List (List Char)) : List (List Char) :=
  lines.foldl
    (fun v line =>
      let line := trimChars line
      if line.isEmpty then v else v ++ [line])
    []

/-! Lemmas about child updates and insertion. -/

theorem updChild_congr (c : Char) (f g : Node → Node) (hfg : ∀ n, f n = g n) :
    ∀ cs, updChild c f cs = updChild c g cs := by
  intro cs
  induction cs with
  | nil => simp [updChild, hfg]
  | cons p t ih =>
    obtain ⟨c1, n⟩ := p
    by_cases h1 : c < c1
    · simp [updChild, h1, hfg]
    · by_cases h2 : c = c1
      · simp [updChild, h1, h2, hfg]
      · simp [updChild, h1, h2, ih]

theorem updChild_updChild_same (c : Char) (f g : Node → Node) :
    ∀ cs, updChild c f (updChild c g cs) = updChild c (fun n => f (g n)) cs := by
  intro cs
  induction cs with
  | nil => simp [updChild, lt_irrefl]
  | cons p t ih =>
    obtain ⟨c1, n⟩ := p
    rcases lt_trichotomy c c1 with h | h | h
    · simp [updChild, h, lt_irrefl]
    · simp [updChild, h, lt_irrefl]
    · simp [updChild, h, lt_asymm h, h.ne', ih]

theorem updChild_comm (c d : Char) (f g : Node → Node) (hne : c ≠ d) :
    ∀ cs, updChild c f (updChild d g cs) = updChild d g (updChild c f cs) := by
  intro cs
  induction cs with
  | nil =>
    rcases lt_trichotomy c d with h | h | h
    · simp [updChild, h, lt_asymm h, h.ne, h.ne']
    · exact absurd h hne
    · simp [updChild, h, lt_asymm h, h.ne, h.ne']
  | cons p t ih =>
    obtain ⟨c1, n⟩ := p
    rcases lt_trichotomy d c1 with hd | hd | hd
    · rcases lt_trichotomy c c1 with hc | hc | hc
      · rcases lt_trichotomy c d with h | h | h
        · simp [updChild, hd, hc, h, lt_asymm h, h.ne, h.ne']
        · exact absurd h hne
        · simp [updChild, hd, hc, h, lt_asymm h, h.ne, h.ne']
      · subst hc
        simp [updChild, hd, lt_irrefl, lt_asymm hd, hd.ne, hd.ne']
      · have hdc : d < c := lt_trans hd hc
        simp [updChild, hd, hc, lt_asymm hc, hc.ne', lt_asymm hdc, hdc.ne, hdc.ne']
    · subst hd
      rcases lt_trichotomy c d with hc | hc | hc
      · simp [updChild, hc, lt_irrefl, lt_asymm hc, hc.ne, hc.ne']
      · exact absurd hc hne
      · simp [updChild, hc, lt_irrefl, lt_asymm hc, hc.ne, hc.ne']
    · rcases lt_trichotomy c c1 with hc | hc | hc
      · have hcd : c < d := lt_trans hc hd
        simp [updChild, hc, hd, lt_asymm hd, hd.ne', lt_asymm hcd, hcd.ne, hcd.ne',
          lt_asymm hc, hc.ne, hc.ne']
      · subst hc
        simp [updChild, hd, lt_irrefl, lt_asymm hd, hd.ne, hd.ne']
      · simp [updChild, hc, hd, lt_asymm hc, hc.ne', lt_asymm hd, hd.ne', ih]

theorem insertW_comm (w1 : List Char) : ∀ (w2 : List Char) (t : Node),
    insertW w1 (insertW w2 t) = insertW w2 (insertW w1 t) := by
  induction w1 with
  | nil =>
    intro w2 t
    cases w2 with
    | nil => rfl
    | cons c2 r2 => cases t with | mk w cs => simp [insertW]
  | cons c r ih =>
    intro w2 t
    cases w2 with
    | nil => cases t with | mk w cs => simp [insertW]
    | cons c2 r2 =>
      cases t with
      | mk w cs =>
        simp only [insertW, Node.mk.injEq, true_and]
        by_cases hc : c = c2
        · subst hc
          rw [updChild_updChild_same, updChild_updChild_same]
          exact updChild_congr c _ _ (fun n => ih r2 n) cs
        · exact updChild_comm c c2 _ _ hc cs

/-! Lemmas about sequential building. -/

theorem build_nil (t : Node) : build [] t = t := rfl

theorem build_cons (w : List Char) (ws : List (List Char)) (t : Node) :
    build (w :: ws) t = build ws (insertW w t) := rfl

theorem build_append (l1 l2 : List (List Char)) (t : Node) :
    build (l1 ++ l2) t = build l2 (build l1 t) := by
  simp [build, List.foldl_append]

theorem build_perm {ws1 ws2 : List (List Char)} (h : ws1.Perm ws2) :
    ∀ t, build ws1 t = build ws2 t := by
  induction h with
  | nil => intro t; rfl
  | cons x _ ih => intro t; rw [build_cons, build_cons, ih]
  | swap x y l => intro t; rw [build_cons, build_cons, build_cons, build_cons, insertW_comm]
  | trans _ _ ih1 ih2 => intro t; rw [ih1, ih2]

theorem insertSorted_perm (w : List Char) :
    ∀ l, (insertSorted w l).Perm (w :: l) := by
  intro l
  induction l with
  | nil => simp [insertSorted]
  | cons x t ih =>
    by_cases h : wordLe w x
    · simp [insertSorted, h]
    · simp only [insertSorted, h, Bool.false_eq_true, if_false]
      exact (ih.cons x).trans (List.Perm.swap w x t)

theorem sortWords_perm (ws : List (List Char)) : (sortWords ws).Perm ws := by
  induction ws with
  | nil => simp [sortWords]
  | cons w t ih =>
    have : sortWords (w :: t) = insertSorted w (sortWords t) := rfl
    rw [this]
    exact (insertSorted_perm w (sortWords t)).trans (ih.cons w)

/-! Lemmas about merging. -/

theorem mergeCh_nil_left (cs : List (Char × Node)) : mergeCh [] cs = cs := by
  cases cs <;> simp [mergeCh]

theorem mergeCh_nil_right (cs : List (Char × Node)) : mergeCh cs [] = cs := by
  cases cs <;> simp [mergeCh]

theorem mergeCh_cons_cons (c1 : Char) (n1 : Node) (t1 : List (Char × Node))
    (c2 : Char) (n2 : Node) (t2 : List (Char × Node)) :
    mergeCh ((c1, n1) :: t1) ((c2, n2) :: t2) =
      if c1 < c2 then (c1, n1) :: mergeCh t1 ((c2, n2) :: t2)
      else if c2 < c1 then (c2, n2) :: mergeCh ((c1, n1) :: t1) t2
      else (c1, mergeNode n1 n2) :: mergeCh t1 t2 := by
  simp [mergeCh]

theorem mergeNode_mk (w1 : Bool) (cs1 : List (Char × Node)) (w2 : Bool)
    (cs2 : List (Char × Node)) :
    mergeNode (.mk w1 cs1) (.mk w2 cs2) = .mk (w1 || w2) (mergeCh cs1 cs2) := by
  simp [mergeNode]

theorem mergeNode_empty_right (t : Node) : mergeNode t Node.empty = t := by
  cases t with
  | mk w cs => simp [Node.empty, mergeNode_mk, mergeCh_nil_right]

theorem mergeNode_empty_left (t : Node) : mergeNode Node.empty t = t := by
  cases t with
  | mk w cs => simp [Node.empty, mergeNode_mk, mergeCh_nil_left]

theorem mergeCh_updChild (c : Char) (f : Node → Node)
    (hf : ∀ n1 n2, mergeNode n1 (f n2) = f (mergeNode n1 n2))
    (hfe : ∀ n, mergeNode n (f Node.empty) = f n) :
    ∀ (cs1 cs2 : List (Char × Node)),
      mergeCh cs1 (updChild c f cs2) = updChild c f (mergeCh cs1 cs2)
  | [], cs2 => by simp [mergeCh_nil_left]
  | (c1, n1) :: t1, [] => by
    rw [mergeCh_nil_right]
    show mergeCh ((c1, n1) :: t1) [(c, f Node.empty)] = _
    rcases lt_trichotomy c1 c with h | h | h
    · rw [mergeCh_cons_cons, if_pos h]
      have hrec := mergeCh_updChild c f hf hfe t1 []
      rw [mergeCh_nil_right] at hrec
      show (c1, n1) :: mergeCh t1 (updChild c f []) = _
      rw [hrec]
      simp [updChild, lt_asymm h, h.ne']
    · subst h
      rw [mergeCh_cons_cons, if_neg (lt_irrefl c1), if_neg (lt_irrefl c1), mergeCh_nil_right,
        hfe]
      simp [updChild, lt_irrefl]
    · rw [mergeCh_cons_cons, if_neg (lt_asymm h), if_pos h, mergeCh_nil_right]
      simp [updChild, h]
  | (c1, n1) :: t1, (c2, n2) :: t2 => by
    rcases lt_trichotomy c c2 with hc | hc | hc
    · -- the updated letter is new and precedes the head of the second list
      have h2 : updChild c f ((c2, n2) :: t2) = (c, f Node.empty) :: (c2, n2) :: t2 := by
        simp [updChild, hc]
      rcases lt_trichotomy c1 c with hc1 | hc1 | hc1
      · have h12 : c1 < c2 := lt_trans hc1 hc
        rw [h2, mergeCh_cons_cons, if_pos hc1, ← h2,
          mergeCh_updChild c f hf hfe t1 ((c2, n2) :: t2),
          mergeCh_cons_cons, if_pos h12]
        simp [updChild, lt_asymm hc1, hc1.ne']
      · subst hc1
        rw [h2, mergeCh_cons_cons, if_neg (lt_irrefl c1), if_neg (lt_irrefl c1), hfe,
          mergeCh_cons_cons, if_pos hc]
        simp [updChild, lt_irrefl]
      · rw [h2, mergeCh_cons_cons, if_neg (lt_asymm hc1), if_pos hc1]
        rcases lt_trichotomy c1 c2 with h12 | h12 | h12
        · rw [mergeCh_cons_cons, if_pos h12]
          simp [updChild, hc1]
        · subst h12
          rw [mergeCh_cons_cons, if_neg (lt_irrefl c1), if_neg (lt_irrefl c1)]
          simp [updChild, hc1]
        · rw [mergeCh_cons_cons, if_neg (lt_asymm h12), if_pos h12]
          simp [updChild, hc]
    · -- the updated letter equals the head letter of the second list
      subst hc
      have h2 : updChild c f ((c, n2) :: t2) = (c, f n2) :: t2 := by
        simp [updChild, lt_irrefl]
      rcases lt_trichotomy c1 c with h12 | h12 | h12
      · rw [h2, mergeCh_cons_cons, if_pos h12, ← h2,
          mergeCh_updChild c f hf hfe t1 ((c, n2) :: t2),
          mergeCh_cons_cons, if_pos h12]
        simp [updChild, lt_asymm h12, h12.ne']
      · subst h12
        rw [h2, mergeCh_cons_cons, if_neg (lt_irrefl c1), if_neg (lt_irrefl c1), hf,
          mergeCh_cons_cons, if_neg (lt_irrefl c1), if_neg (lt_irrefl c1)]
        simp [updChild, lt_irrefl]
      · rw [h2, mergeCh_cons_cons, if_neg (lt_asymm h12), if_pos h12,
          mergeCh_cons_cons, if_neg (lt_asymm h12), if_pos h12]
        simp [updChild, lt_irrefl]
    · -- the updated letter comes after the head letter of the second list
      have h2 : updChild c f ((c2, n2) :: t2) = (c2, n2) :: updChild c f t2 := by
        simp [updChild, lt_asymm hc, hc.ne']
      rcases lt_trichotomy c1 c2 with h12 | h12 | h12
      · have hc1 : c1 < c := lt_trans h12 hc
        rw [h2, mergeCh_cons_cons, if_pos h12, ← h2,
          mergeCh_updChild c f hf hfe t1 ((c2, n2) :: t2),
          mergeCh_cons_cons, if_pos h12]
        simp [updChild, lt_asymm hc1, hc1.ne']
      · subst h12
        rw [h2, mergeCh_cons_cons, if_neg (lt_irrefl c1), if_neg (lt_irrefl c1),
          mergeCh_updChild c f hf hfe t1 t2,
          mergeCh_cons_cons, if_neg (lt_irrefl c1), if_neg (lt_irrefl c1)]
        simp [updChild, lt_asymm hc, hc.ne']
      · rw [h2, mergeCh_cons_cons, if_neg (lt_asymm h12), if_pos h12,
          mergeCh_updChild c f hf hfe ((c1, n1) :: t1) t2,
          mergeCh_cons_cons, if_neg (lt_asymm h12), if_pos h12]
        simp [updChild, lt_asymm hc, hc.ne']
termination_by cs1 cs2 => cs1.length + cs2.length

theorem mergeNode_insertW : ∀ (w : List Char) (t s : Node),
    mergeNode t (insertW w s) = insertW w (mergeNode t s) := by
  intro w
  induction w with
  | nil =>
    intro t s
    cases t with
    | mk w1 cs1 =>
      cases s with
      | mk w2 cs2 => simp [insertW, mergeNode_mk]
  | cons c r ih =>
    intro t s
    cases t with
    | mk w1 cs1 =>
      cases s with
      | mk w2 cs2 =>
        simp only [insertW, mergeNode_mk, Node.mk.injEq, true_and]
        exact mergeCh_updChild c (insertW r) (fun n1 n2 => ih n1 n2)
          (fun n => by rw [ih, mergeNode_empty_right]) cs1 cs2

theorem mergeNode_build (ws : List (List Char)) :
    ∀ (t s : Node), mergeNode t (build ws s) = build ws (mergeNode t s) := by
  induction ws with
  | nil => intro t s; rfl
  | cons w rest ih =>
    intro t s
    rw [build_cons, build_cons, ih, mergeNode_insertW]

theorem mergeNode_build_empty (ws : List (List Char)) (t : Node) :
    mergeNode t (build ws Node.empty) = build ws t := by
  rw [mergeNode_build, mergeNode_empty_right]

theorem mergeAll_eq_build (bufs : List (Char × List (List Char))) :
    ∀ t, (bufs.map worker).foldl mergeNode t = build (bufs.map Prod.snd).flatten t := by
  induction bufs with
  | nil => intro t; rfl
  | cons cb rest ih =>
    intro t
    simp only [List.map_cons, List.foldl_cons, List.flatten_cons]
    rw [ih, worker, mergeNode_build_empty, build_append]

theorem buffers_flatten (ws : List (List Char)) :
    ((buffers ws).map Prod.snd).flatten = ws := by
  induction ws with
  | nil => rfl
  | cons w t ih =>
    cases hb : buffers t with
    | nil =>
      rw [hb] at ih
      simp at ih
      simp [buffers, hb, ← ih]
    | cons cb rest =>
      obtain ⟨c, b⟩ := cb
      rw [hb] at ih
      by_cases hfc : firstChar w = c
      · simp only [buffers, hb, hfc, if_pos rfl]
        simp only [List.map_cons, List.flatten_cons] at ih ⊢
        rw [← ih]
        simp
      · simp only [buffers, hb, hfc, if_false]
        simp only [List.map_cons, List.flatten_cons] at ih ⊢
        rw [← ih]
        simp

theorem flatten_perm {l1 l2 : List (List (List Char))} (h : l1.Perm l2) :
    l1.flatten.Perm l2.flatten := by
  induction h with
  | nil => exact List.Perm.refl _
  | cons x _ ih => simpa using ih.append_left x
  | swap x y l =>
    simp only [List.flatten_cons]
    rw [← List.append_assoc, ← List.append_assoc]
    exact (List.perm_append_comm).append_right _
  | trans _ _ ih1 ih2 => exact ih1.trans ih2

theorem loadTrieN_eq (m : LoadMethod) (s : Bool) (ws : List (List Char)) :
    loadTrieN m s ws = build ws Node.empty := by
  cases m with
  | ReadVecFill => exact build_perm (sortWords_perm ws) _
  | VecFill =>
    cases s with
    | true => rfl
    | false => exact build_perm (sortWords_perm ws) _
  | Continuous => rfl
  | ContinuousParallel =>
    show mergeAll ((buffers ws).map worker) = _
    rw [mergeAll, mergeAll_eq_build, buffers_flatten]

/-! The parent-tracking variant projects onto the no-parent structure. -/

theorem strip_mk (p : List Char) (w : Bool) (cs : List (Char × BNode)) :
    strip (.mk p w cs) = .mk w (stripCh cs) := by
  simp [strip]

theorem stripCh_nil : stripCh [] = [] := by simp [stripCh]

theorem stripCh_cons (c : Char) (n : BNode) (t : List (Char × BNode)) :
    stripCh ((c, n) :: t) = (c, strip n) :: stripCh t := by
  simp [stripCh]

theorem strip_bempty : strip BNode.empty = Node.empty := by
  simp [BNode.empty, Node.empty, strip_mk, stripCh_nil]

theorem stripCh_length (cs : List (Char × BNode)) : (stripCh cs).length = cs.length := by
  induction cs with
  | nil => simp [stripCh_nil]
  | cons p t ih => obtain ⟨c, n⟩ := p; simp [stripCh_cons, ih]

theorem strip_children_length (bt : BNode) :
    (strip bt).children.length = bt.children.length := by
  cases bt with
  | mk p w cs => simp [strip_mk, Node.children, BNode.children, stripCh_length]

theorem stripCh_bupdChild (p : List Char) (c : Char) (bf : BNode → BNode) (f : Node → Node)
    (hfs : ∀ n, strip (bf n) = f (strip n)) :
    ∀ cs, stripCh (bupdChild p c bf cs) = updChild c f (stripCh cs) := by
  intro cs
  have hfe : strip (bf (BNode.mk (p ++ [c]) false [])) = f Node.empty := by
    rw [hfs]
    simp [strip_mk, stripCh_nil, Node.empty]
  induction cs with
  | nil => simp [bupdChild, updChild, stripCh_cons, stripCh_nil, hfe]
  | cons q t ih =>
    obtain ⟨c1, n⟩ := q
    rcases lt_trichotomy c c1 with h | h | h
    · simp [bupdChild, updChild, h, stripCh_cons, hfe]
    · subst h
      simp [bupdChild, updChild, lt_irrefl, stripCh_cons, hfs]
    · simp [bupdChild, updChild, lt_asymm h, h.ne', stripCh_cons, ih]

theorem strip_binsertW : ∀ (w : List Char) (bt : BNode),
    strip (binsertW w bt) = insertW w (strip bt) := by
  intro w
  induction w with
  | nil =>
    intro bt
    cases bt with
    | mk p b cs => simp [binsertW, insertW, strip_mk]
  | cons c r ih =>
    intro bt
    cases bt with
    | mk p b cs =>
      simp only [binsertW, insertW, strip_mk, Node.mk.injEq, true_and]
      exact stripCh_bupdChild p c (binsertW r) (insertW r) (fun n => ih n) cs

theorem bmergeCh_nil_left (cs : List (Char × BNode)) : bmergeCh [] cs = cs := by
  cases cs <;> simp [bmergeCh]

theorem bmergeCh_nil_right (cs : List (Char × BNode)) : bmergeCh cs [] = cs := by
  cases cs <;> simp [bmergeCh]

theorem bmergeCh_cons_cons (c1 : Char) (n1 : BNode) (t1 : List (Char × BNode))
    (c2 : Char) (n2 : BNode) (t2 : List (Char × BNode)) :
    bmergeCh ((c1, n1) :: t1) ((c2, n2) :: t2) =
      if c1 < c2 then (c1, n1) :: bmergeCh t1 ((c2, n2) :: t2)
      else if c2 < c1 then (c2, n2) :: bmergeCh ((c1, n1) :: t1) t2
      else (c1, bmergeNode n1 n2) :: bmergeCh t1 t2 := by
  simp [bmergeCh]

theorem bmergeNode_mk (p1 : List Char) (w1 : Bool) (cs1 : List (Char × BNode))
    (p2 : List Char) (w2 : Bool) (cs2 : List (Char × BNode)) :
    bmergeNode (.mk p1 w1 cs1) (.mk p2 w2 cs2) = .mk p1 (w1 || w2) (bmergeCh cs1 cs2) := by
  simp [bmergeNode]

mutual
theorem strip_bmergeNode : ∀ (a b : BNode),
    strip (bmergeNode a b) = mergeNode (strip a) (strip b)
  | .mk p1 w1 cs1, .mk p2 w2 cs2 => by
    rw [bmergeNode_mk, strip_mk, strip_mk, strip_mk, mergeNode_mk,
      stripCh_bmergeCh cs1 cs2]
termination_by a b => sizeOf a + sizeOf b
theorem stripCh_bmergeCh : ∀ (cs1 cs2 : List (Char × BNode)),
    stripCh (bmergeCh cs1 cs2) = mergeCh (stripCh cs1) (stripCh cs2)
  | [], cs2 => by rw [bmergeCh_nil_left, stripCh_nil, mergeCh_nil_left]
  | (c1, n1) :: t1, [] => by rw [bmergeCh_nil_right, stripCh_nil, mergeCh_nil_right]
  | (c1, n1) :: t1, (c2, n2) :: t2 => by
    rcases lt_trichotomy c1 c2 with h | h | h
    · rw [bmergeCh_cons_cons, if_pos h, stripCh_cons, stripCh_cons, stripCh_cons,
        mergeCh_cons_cons, if_pos h, stripCh_bmergeCh t1 ((c2, n2) :: t2), stripCh_cons]
    · subst h
      rw [bmergeCh_cons_cons, if_neg (lt_irrefl c1), if_neg (lt_irrefl c1),
        stripCh_cons, stripCh_cons, stripCh_cons,
        mergeCh_cons_cons, if_neg (lt_irrefl c1), if_neg (lt_irrefl c1),
        stripCh_bmergeCh t1 t2, strip_bmergeNode n1 n2]
    · rw [bmergeCh_cons_cons, if_neg (lt_asymm h), if_pos h, stripCh_cons, stripCh_cons,
        stripCh_cons, mergeCh_cons_cons, if_neg (lt_asymm h), if_pos h,
        stripCh_bmergeCh ((c1, n1) :: t1) t2, stripCh_cons]
termination_by cs1 cs2 => sizeOf cs1 + sizeOf cs2
end

theorem binsertW_pre (w : List Char) (bt : BNode) : (binsertW w bt).pre = bt.pre := by
  cases w <;> cases bt <;> simp [binsertW, BNode.pre]

theorem bmergeNode_pre (a b : BNode) : (bmergeNode a b).pre = a.pre := by
  cases a <;> cases b <;> simp [bmergeNode_mk, BNode.pre]

theorem bbuild_pre (ws : List (List Char)) : ∀ bt, (bbuild ws bt).pre = bt.pre := by
  induction ws with
  | nil => intro bt; rfl
  | cons w rest ih =>
    intro bt
    show (bbuild rest (binsertW w bt)).pre = _
    rw [ih, binsertW_pre]

theorem bfoldl_pre (subs : List BNode) : ∀ acc, (subs.foldl bmergeNode acc).pre = acc.pre := by
  induction subs with
  | nil => intro acc; rfl
  | cons sub rest ih =>
    intro acc
    simp only [List.foldl_cons]
    rw [ih, bmergeNode_pre]

theorem strip_bbuild (ws : List (List Char)) : ∀ bt,
    strip (bbuild ws bt) = build ws (strip bt) := by
  induction ws with
  | nil => intro bt; rfl
  | cons w rest ih =>
    intro bt
    show strip (bbuild rest (binsertW w bt)) = build rest (insertW w (strip bt))
    rw [ih, strip_binsertW]

theorem strip_bworker (cb : Char × List (List Char)) : strip (bworker cb) = worker cb := by
  show strip (bbuild cb.2 BNode.empty) = build cb.2 Node.empty
  rw [strip_bbuild, strip_bempty]

theorem strip_bfoldl (subs : List BNode) : ∀ acc,
    strip (subs.foldl bmergeNode acc) = (subs.map strip).foldl mergeNode (strip acc) := by
  induction subs with
  | nil => intro acc; rfl
  | cons sub rest ih =>
    intro acc
    simp only [List.foldl_cons, List.map_cons]
    rw [ih, strip_bmergeNode]

theorem strip_loadTrieB (m : LoadMethod) (s : Bool) (ws : List (List Char)) :
    strip (loadTrieB m s ws) = loadTrieN m s ws := by
  cases m with
  | ReadVecFill => show strip (bbuild _ _) = _; rw [strip_bbuild, strip_bempty]; rfl
  | VecFill => show strip (bbuild _ _) = _; rw [strip_bbuild, strip_bempty]; rfl
  | Continuous => show strip (bbuild _ _) = _; rw [strip_bbuild, strip_bempty]; rfl
  | ContinuousParallel =>
    show strip (bmergeAll ((buffers ws).map bworker)) = mergeAll ((buffers ws).map worker)
    rw [bmergeAll, strip_bfoldl, strip_bempty, mergeAll, List.map_map]
    congr 1
    simp [Function.comp, strip_bworker]

theorem pre_loadTrieB (m : LoadMethod) (s : Bool) (ws : List (List Char)) :
    (loadTrieB m s ws).pre = [] := by
  cases m with
  | ReadVecFill => exact (bbuild_pre _ _)
  | VecFill => exact (bbuild_pre _ _)
  | Continuous => exact (bbuild_pre _ _)
  | ContinuousParallel => exact (bfoldl_pre _ _)

theorem loadNode_eq (lt : LetterTrieType) (m : LoadMethod) (s : Bool)
    (ws : List (List Char)) : loadNode lt m s ws = build ws Node.empty := by
  cases lt with
  | NoParent => exact loadTrieN_eq m s ws
  | Base =>
    show strip (loadTrieB m s ws) = _
    rw [strip_loadTrieB, loadTrieN_eq]

theorem loadSnapshot_eq (lt : LetterTrieType) (m : LoadMethod) (s : Bool)
    (ws : List (List Char)) :
    loadSnapshot lt m s ws = toFixedNode rootChar [] 0 (build ws Node.empty) := by
  cases lt with
  | NoParent =>
    show toFixedNode rootChar [] 0 (loadTrieN m s ws) = _
    rw [loadTrieN_eq]
  | Base =>
    have hs : strip (loadTrieB m s ws) = build ws Node.empty := by
      rw [strip_loadTrieB, loadTrieN_eq]
    have hp : (loadTrieB m s ws).pre = [] := pre_loadTrieB m s ws
    have hl : (loadTrieB m s ws).children.length = (build ws Node.empty).children.length := by
      rw [← hs, strip_children_length]
    show toFixedNodeB rootChar (loadTrieB m s ws) = _
    simp [toFixedNodeB, toFixedNode, hs, hp, hl]

/-! Canonical tries: children keys strictly sorted at every level.  Every
trie reachable by insertions from the empty trie is canonical. -/

def keys (cs : List (Char × Node)) : List Char := cs.map Prod.fst

theorem keys_nil : keys [] = [] := rfl

theorem keys_cons (c : Char) (n : Node) (t : List (Char × Node)) :
    keys ((c, n) :: t) = c :: keys t := rfl

inductive Canon : Node → Prop where
  | intro (w : Bool) (cs : List (Char × Node)) :
      List.Pairwise (· < ·) (keys cs) → (∀ p ∈ cs, Canon p.2) → Canon (.mk w cs)

theorem canon_empty : Canon Node.empty :=
  Canon.intro false [] (by simp [keys_nil]) (by simp)

theorem updChild_lt_eq (c c1 : Char) (f : Node → Node) (n : Node)
    (t : List (Char × Node)) (h : c < c1) :
    updChild c f ((c1, n) :: t) = (c, f Node.empty) :: (c1, n) :: t := by
  simp [updChild, h]

theorem updChild_eq_eq (c : Char) (f : Node → Node) (n : Node)
    (t : List (Char × Node)) :
    updChild c f ((c, n) :: t) = (c, f n) :: t := by
  simp [updChild, lt_irrefl]

theorem updChild_gt_eq (c c1 : Char) (f : Node → Node) (n : Node)
    (t : List (Char × Node)) (h : c1 < c) :
    updChild c f ((c1, n) :: t) = (c1, n) :: updChild c f t := by
  simp [updChild, lt_asymm h, h.ne']

theorem mem_keys_updChild (c : Char) (f : Node → Node) :
    ∀ cs k, k ∈ keys (updChild c f cs) → k = c ∨ k ∈ keys cs := by
  intro cs
  induction cs with
  | nil => intro k hk; simp [updChild, keys] at hk; exact Or.inl hk
  | cons q t ih =>
    obtain ⟨c1, n⟩ := q
    intro k hk
    rcases lt_trichotomy c c1 with h | h | h
    · rw [updChild_lt_eq c c1 f n t h, keys_cons, keys_cons] at hk
      rcases List.mem_cons.mp hk with hk | hk
      · exact Or.inl hk
      · exact Or.inr hk
    · subst h
      rw [updChild_eq_eq c f n t, keys_cons] at hk
      rw [keys_cons]
      exact Or.inr hk
    · rw [updChild_gt_eq c c1 f n t h, keys_cons] at hk
      rcases List.mem_cons.mp hk with hk | hk
      · exact Or.inr (by rw [keys_cons, hk]; exact List.mem_cons_self c1 (keys t))
      · rcases ih k hk with hk1 | hk1
        · exact Or.inl hk1
        · exact Or.inr (by rw [keys_cons]; exact List.mem_cons_of_mem c1 hk1)

theorem canon_updChild (c : Char) (f : Node → Node)
    (hf : ∀ n, Canon n → Canon (f n)) (hfe : Canon (f Node.empty)) :
    ∀ cs, List.Pairwise (· < ·) (keys cs) → (∀ p ∈ cs, Canon p.2) →
      List.Pairwise (· < ·) (keys (updChild c f cs)) ∧
      (∀ p ∈ updChild c f cs, Canon p.2) := by
  intro cs
  induction cs with
  | nil =>
    intro _ _
    refine ⟨by simp [updChild, keys], ?_⟩
    intro p hp
    simp only [updChild, List.mem_singleton] at hp
    subst hp
    exact hfe
  | cons q t ih =>
    obtain ⟨c1, n⟩ := q
    intro hPW hCC
    rw [keys_cons, List.pairwise_cons] at hPW
    obtain ⟨hhead, htail⟩ := hPW
    rcases lt_trichotomy c c1 with h | h | h
    · rw [updChild_lt_eq c c1 f n t h]
      refine ⟨?_, ?_⟩
      · rw [keys_cons, keys_cons, List.pairwise_cons]
        refine ⟨?_, ?_⟩
        · intro k hk
          rcases List.mem_cons.mp hk with hk | hk
          · subst hk; exact h
          · exact lt_trans h (hhead k hk)
        · rw [List.pairwise_cons]
          exact ⟨hhead, htail⟩
      · intro p hp
        rcases List.mem_cons.mp hp with hp | hp
        · subst hp; exact hfe
        · exact hCC p hp
    · subst h
      rw [updChild_eq_eq c f n t]
      refine ⟨?_, ?_⟩
      · rw [keys_cons, List.pairwise_cons]
        exact ⟨hhead, htail⟩
      · intro p hp
        rcases List.mem_cons.mp hp with hp | hp
        · subst hp; exact hf n (hCC (c, n) (List.mem_cons_self _ _))
        · exact hCC p (List.mem_cons_of_mem _ hp)
    · rw [updChild_gt_eq c c1 f n t h]
      obtain ⟨ih1, ih2⟩ := ih htail (fun p hp => hCC p (List.mem_cons_of_mem _ hp))
      refine ⟨?_, ?_⟩
      · rw [keys_cons, List.pairwise_cons]
        refine ⟨?_, ih1⟩
        intro k hk
        rcases mem_keys_updChild c f t k hk with hk1 | hk1
        · subst hk1; exact h
        · exact hhead k hk1
      · intro p hp
        rcases List.mem_cons.mp hp with hp | hp
        · subst hp; exact hCC (c1, n) (List.mem_cons_self _ _)
        · exact ih2 p hp

theorem canon_insertW : ∀ (w : List Char) (t : Node), Canon t → Canon (insertW w t) := by
  intro w
  induction w with
  | nil =>
    intro t ht
    cases ht with
    | intro b cs hPW hCC => exact Canon.intro true cs hPW hCC
  | cons c r ih =>
    intro t ht
    cases ht with
    | intro b cs hPW hCC =>
      obtain ⟨h1, h2⟩ :=
        canon_updChild c (insertW r) (fun n hn => ih n hn) (ih _ canon_empty) cs hPW hCC
      exact Canon.intro b _ h1 h2

theorem canon_build (ws : List (List Char)) : ∀ t, Canon t → Canon (build ws t) := by
  induction ws with
  | nil => intro t ht; exact ht
  | cons w rest ih =>
    intro t ht
    rw [build_cons]
    exact ih _ (canon_insertW w t ht)

theorem lookupChild_some_mem (c : Char) :
    ∀ (cs : List (Char × Node)) (m : Node), lookupChild c cs = some m → (c, m) ∈ cs := by
  intro cs
  induction cs with
  | nil => intro m h; simp [lookupChild] at h
  | cons q t ih =>
    obtain ⟨c1, n⟩ := q
    intro m h
    by_cases hc : c = c1
    · subst hc
      rw [lookupChild, if_pos rfl] at h
      injection h with h
      subst h
      simp
    · rw [lookupChild, if_neg hc] at h
      exact List.mem_cons_of_mem _ (ih m h)

theorem updChild_eq_of_lookup (c : Char) (f : Node → Node) :
    ∀ (cs : List (Char × Node)) (m : Node), List.Pairwise (· < ·) (keys cs) →
      lookupChild c cs = some m → f m = m → updChild c f cs = cs := by
  intro cs
  induction cs with
  | nil => intro m _ h; simp [lookupChild] at h
  | cons q t ih =>
    obtain ⟨c1, n⟩ := q
    intro m hPW hlk hfm
    by_cases h : c = c1
    · subst h
      rw [lookupChild, if_pos rfl] at hlk
      injection hlk with hlk
      subst hlk
      simp [updChild, lt_irrefl, hfm]
    · rw [lookupChild, if_neg h] at hlk
      have hmem : c ∈ keys t :=
        List.mem_map.mpr ⟨(c, m), lookupChild_some_mem c t m hlk, rfl⟩
      rw [keys_cons, List.pairwise_cons] at hPW
      have hlt : c1 < c := hPW.1 c hmem
      rw [updChild, if_neg (lt_asymm hlt), if_neg (Ne.symm (h ∘ Eq.symm))]
      rw [ih m hPW.2 hlk hfm]

theorem insertW_of_wordMem : ∀ (w : List Char) (t : Node), Canon t →
    wordMem t w = true → insertW w t = t := by
  intro w
  induction w with
  | nil =>
    intro t ht hw
    cases t with
    | mk b cs =>
      have hb : b = true := by simpa [wordMem, findNode, Node.is_word] using hw
      subst hb
      rfl
  | cons c r ih =>
    intro t ht hw
    cases ht with
    | intro b cs hPW hCC =>
      cases hlk : lookupChild c cs with
      | none =>
        rw [wordMem, findNode, hlk] at hw
        simp at hw
      | some m =>
        have hmem : (c, m) ∈ cs := lookupChild_some_mem c cs m hlk
        have hcm : Canon m := hCC (c, m) hmem
        have hwm : wordMem m r = true := by
          rw [wordMem, findNode, hlk] at hw
          rw [wordMem]
          exact hw
        show Node.mk b (updChild c (insertW r) cs) = Node.mk b cs
        rw [updChild_eq_of_lookup c (insertW r) cs m hPW hlk (ih m hcm hwm)]

/-! Lemmas about prefix search. -/

theorem findFrom_eq : ∀ (p : List Char) (t : Node) (c0 : Char) (pre : List Char) (d : Nat),
    findFrom t c0 pre d p =
      (findNode t p).map
        (fun n => toFixedNode (p.getLastD c0) (pre ++ p) (d + p.length) n) := by
  intro p
  induction p with
  | nil => intro t c0 pre d; simp [findFrom, findNode]
  | cons c r ih =>
    intro t c0 pre d
    cases t with
    | mk b cs =>
      cases hlk : lookupChild c cs with
      | none => simp [findFrom, findNode, hlk]
      | some m =>
        have h1 : findFrom (Node.mk b cs) c0 pre d (c :: r) =
            findFrom m c (pre ++ [c]) (d + 1) r := by
          simp [findFrom, hlk]
        have h2 : findNode (Node.mk b cs) (c :: r) = findNode m r := by
          simp [findNode, hlk]
        rw [h1, h2, ih m c (pre ++ [c]) (d + 1)]
        cases hfn : findNode m r with
        | none => rfl
        | some n =>
          have e1 : r.getLastD c = (c :: r).getLastD c0 := (List.getLastD_cons c0 c r).symm
          have e2 : (pre ++ [c]) ++ r = pre ++ (c :: r) := by simp
          have e3 : (d + 1) + r.length = d + (c :: r).length := by
            simp [List.length_cons]
            omega
          rw [e1, e2, e3]

theorem findNode_none_iff_hasPath : ∀ (p : List Char) (t : Node),
    findNode t p = none ↔ hasPath t p = false := by
  intro p
  induction p with
  | nil => intro t; simp [findNode, hasPath]
  | cons c r ih =>
    intro t
    cases t with
    | mk b cs =>
      cases hlk : lookupChild c cs with
      | none => simp [findNode, hasPath, hlk]
      | some m => simp [findNode, hasPath, hlk, ih m]

/-! Lemmas about the lookup counters. -/

theorem record_true (s : CharGetCounter) :
    s.record true = { hit_count := s.hit_count + 1, miss_count := s.miss_count } := by
  simp [CharGetCounter.record]

theorem record_false (s : CharGetCounter) :
    s.record false = { hit_count := s.hit_count, miss_count := s.miss_count + 1 } := by
  simp [CharGetCounter.record]

theorem lookupChild_updChild_ne (c d : Char) (hne : d ≠ c) (f : Node → Node) :
    ∀ cs, lookupChild d (updChild c f cs) = lookupChild d cs := by
  intro cs
  induction cs with
  | nil => simp [updChild, lookupChild, hne]
  | cons q t ih =>
    obtain ⟨c1, n⟩ := q
    rcases lt_trichotomy c c1 with h | h | h
    · rw [updChild_lt_eq c c1 f n t h, lookupChild, if_neg hne]
    · subst h
      rw [updChild_eq_eq c f n t, lookupChild, if_neg hne, lookupChild, if_neg hne]
    · rw [updChild_gt_eq c c1 f n t h]
      by_cases hd : d = c1
      · rw [lookupChild, if_pos hd, lookupChild, if_pos hd]
      · rw [lookupChild, if_neg hd, lookupChild, if_neg hd, ih]

theorem buildCnt_cons (w : List Char) (ws : List (List Char)) (t : Node)
    (s : CharGetCounter) :
    buildCnt (w :: ws) t s = buildCnt ws (insertW w t) (s.recordMany (insertTrace w t)) :=
  rfl

theorem insertW_children (w : Bool) (cs : List (Char × Node)) (c : Char) :
    (insertW [c] (Node.mk w cs)).children = updChild c (insertW []) cs := rfl

theorem buildCnt_distinct_singles : ∀ (chars : List Char) (t : Node) (s : CharGetCounter),
    chars.Nodup → (∀ c ∈ chars, lookupChild c t.children = none) →
    (buildCnt (chars.map fun c => [c]) t s).2 =
      { hit_count := s.hit_count, miss_count := s.miss_count + chars.length } := by
  intro chars
  induction chars with
  | nil => intro t s _ _; simp [buildCnt]
  | cons c rest ih =>
    intro t s hnd hlk
    have hc : lookupChild c t.children = none := hlk c (List.mem_cons_self c rest)
    have htr : insertTrace [c] t = [false] := by
      cases t with
      | mk b cs =>
        rw [Node.children] at hc
        simp [insertTrace, hc]
    rw [List.map_cons, buildCnt_cons, htr]
    have hrm : s.recordMany [false] =
        { hit_count := s.hit_count, miss_count := s.miss_count + 1 } := by
      simp [CharGetCounter.recordMany, record_false]
    rw [hrm]
    rw [ih (insertW [c] t) _ hnd.of_cons ?_]
    · simp [Nat.add_assoc, Nat.add_comm 1 rest.length]
    · intro d hd
      have hdc : d ≠ c := by
        intro h
        subst h
        exact (List.nodup_cons.mp hnd).1 hd
      cases t with
      | mk b cs =>
        rw [insertW_children, lookupChild_updChild_ne c d hdc]
        exact hlk d (List.mem_cons_of_mem c hd)

/-! Lemmas about reading lines. -/

theorem make_vec_char_go : ∀ (lines : List (List Char)) (v : List (List Char)),
    lines.foldl
        (fun v line =>
          let line := trimChars line
          if line.isEmpty then v else v ++ [lowerChars line]) v =
      v ++ ((lines.map trimChars).filter
        (fun l => !l.isEmpty)).map lowerChars := by
  intro lines
  induction lines with
  | nil => intro v; simp
  | cons l rest ih =>
    intro v
    rw [List.foldl_cons, ih]
    by_cases h : (trimChars l).isEmpty
    · simp [h]
    · simp [h]

theorem words_from_file_go : ∀ (lines : List (List Char)) (v : List (List Char)),
    lines.foldl
        (fun v line =>
          let line := trimChars line
          if line.isEmpty then v else v ++ [line]) v =
      v ++ (lines.map trimChars).filter (fun l => !l.isEmpty) := by
  intro lines
  induction lines with
  | nil => intro v; simp
  | cons l rest ih =>
    intro v
    rw [List.foldl_cons, ih]
    by_cases h : (trimChars l).isEmpty
    · simp [h]
    · simp [h]

/-! Claim theorems. -/

/-- C1: for every finite word set, every input ordering of it, both
node-model variants (Base and NoParent) and all four loader strategies
(ReadVecFill, VecFill, Continuous, ContinuousParallel), the trie built is
the same — the same underlying recursive structure, hence the same
FixedNode snapshot with equal node_count, word_count and height. -/
theorem load_independent_of_order_method_variant
    (ws1 ws2 : List (List Char)) (h : ws1.Perm ws2)
    (lt1 lt2 : LetterTrieType) (m1 m2 : LoadMethod) (s1 s2 : Bool) :
    loadNode lt1 m1 s1 ws1 = loadNode lt2 m2 s2 ws2 ∧
    loadSnapshot lt1 m1 s1 ws1 = loadSnapshot lt2 m2 s2 ws2 := by
  rw [loadNode_eq, loadNode_eq, loadSnapshot_eq, loadSnapshot_eq, build_perm h]
  exact ⟨rfl, rfl⟩

/-- Witness for C1 at a concrete word set, ordering, variant pair and
loader pair. -/
theorem load_independent_of_order_method_variant_witness :
    ([['c', 'a', 't'], ['d', 'o', 'g']].Perm [['d', 'o', 'g'], ['c', 'a', 't']]) ∧
    loadNode .Base .ContinuousParallel true [['c', 'a', 't'], ['d', 'o', 'g']] =
      loadNode .NoParent .ReadVecFill false [['d', 'o', 'g'], ['c', 'a', 't']] :=
  ⟨by decide,
    (load_independent_of_order_method_variant _ _ (by decide)
      .Base .NoParent .ContinuousParallel .ReadVecFill true false).1⟩

/-- C2: for every word set and every order in which the per-first-letter
worker subtries complete and are merged (any permutation of the spawned
buffers, letters possibly repeating when the input is not letter-clustered),
the merged trie equals the trie built by any sequential loader on the same
word set, and so does its snapshot. -/
theorem parallel_merge_completion_order
    (ws : List (List Char)) (order : List (Char × List (List Char)))
    (h : order.Perm (buffers ws)) (m : LoadMethod) (s : Bool) :
    mergeAll (order.map worker) = loadTrieN m s ws ∧
    toFixedNode rootChar [] 0 (mergeAll (order.map worker)) =
      toFixedNode rootChar [] 0 (loadTrieN m s ws) := by
  have hmain : mergeAll (order.map worker) = build ws Node.empty := by
    rw [mergeAll, mergeAll_eq_build]
    have hp : ((order.map Prod.snd).flatten).Perm
        (((buffers ws).map Prod.snd).flatten) := flatten_perm (h.map Prod.snd)
    rw [build_perm hp, buffers_flatten]
  rw [hmain, loadTrieN_eq]
  exact ⟨rfl, rfl⟩

/-- Witness for C2: three one-letter buffers completing in reverse spawn
order still merge to the sequential result. -/
theorem parallel_merge_completion_order_witness :
    (([(Char.ofNat 99, [['c', 'z']]), (Char.ofNat 98, [['b', 'y']]),
        (Char.ofNat 97, [['a', 'x']])] :
      List (Char × List (List Char))).Perm
        (buffers [['a', 'x'], ['b', 'y'], ['c', 'z']])) ∧
    mergeAll (([(Char.ofNat 99, [['c', 'z']]), (Char.ofNat 98, [['b', 'y']]),
        (Char.ofNat 97, [['a', 'x']])] :
      List (Char × List (List Char))).map worker) =
      loadTrieN .Continuous true [['a', 'x'], ['b', 'y'], ['c', 'z']] :=
  ⟨by decide,
    (parallel_merge_completion_order [['a', 'x'], ['b', 'y'], ['c', 'z']] _
      (by decide) .Continuous true).1⟩

/-- The concrete word set of C3. -/
def words3 : List (List Char) := [['c', 'a', 't'], ['c', 'a', 'r'], ['d', 'o', 'g']]

/-- C3: building a trie by any loader and node model from exactly the words
cat, car, dog yields a snapshot with node_count 8, word_count 3, height 3
and top-level child_count 2, and find "ca" on that trie returns a snapshot
with node_count 3 and word_count 2. -/
theorem cat_car_dog_scenario (lt : LetterTrieType) (m : LoadMethod) (s : Bool) :
    (loadSnapshot lt m s words3).node_count = 8 ∧
    (loadSnapshot lt m s words3).word_count = 3 ∧
    (loadSnapshot lt m s words3).height = 3 ∧
    (loadSnapshot lt m s words3).child_count = 2 ∧
    (find (loadNode lt m s words3) ['c', 'a']).map
      (fun fx => (fx.node_count, fx.word_count)) = some (3, 2) := by
  rw [loadSnapshot_eq, loadNode_eq]
  decide

/-- C4: on any trie reachable by insertions, re-inserting a word that is
already present changes nothing: the trie, its node_count and its
word_count are all unchanged. -/
theorem insert_idempotent (ws : List (List Char)) (w : List Char) (t : Node)
    (ht : t = build ws Node.empty) (hw : wordMem t w = true) :
    insertW w t = t ∧ nodeCount (insertW w t) = nodeCount t ∧
      wordCount (insertW w t) = wordCount t := by
  subst ht
  have hc : Canon (build ws Node.empty) := canon_build ws Node.empty canon_empty
  have h := insertW_of_wordMem w _ hc hw
  exact ⟨h, by rw [h], by rw [h]⟩

/-- Witness for C4 at a concrete trie and word. -/
theorem insert_idempotent_witness :
    wordMem (build [['a', 'b']] Node.empty) ['a', 'b'] = true ∧
    insertW ['a', 'b'] (build [['a', 'b']] Node.empty) = build [['a', 'b']] Node.empty :=
  ⟨by decide,
    (insert_idempotent [['a', 'b']] ['a', 'b'] (build [['a', 'b']] Node.empty)
      rfl (by decide)).1⟩

/-- C5: find returns None exactly when some letter of the prefix is absent
along the path from the root; otherwise it returns the snapshot of the
subtree rooted at the node matching the full prefix; find on the empty
prefix returns a snapshot carrying the whole trie's node and word totals. -/
theorem find_spec (t : Node) (p : List Char) :
    (find t p = none ↔ hasPath t p = false) ∧
    find t p = (findNode t p).map
      (fun n => toFixedNode (p.getLastD rootChar) p p.length n) ∧
    find t [] = some (toFixedNode rootChar [] 0 t) ∧
    (toFixedNode rootChar [] 0 t).node_count = nodeCount t ∧
    (toFixedNode rootChar [] 0 t).word_count = wordCount t := by
  have hmap : find t p = (findNode t p).map
      (fun n => toFixedNode (p.getLastD rootChar) p p.length n) := by
    rw [find, findFrom_eq]
    simp
  have hnil : find t [] = some (toFixedNode rootChar [] 0 t) := by
    cases t
    rfl
  refine ⟨?_, hmap, hnil, rfl, rfl⟩
  rw [hmap]
  cases hfn : findNode t p with
  | none => simp [(findNode_none_iff_hasPath p t).mp hfn]
  | some n =>
    simp only [Option.map]
    constructor
    · intro h; cases h
    · intro h
      have := (findNode_none_iff_hasPath p t).mpr h
      rw [hfn] at this
      cases this

/-- C6 counterexample: two structurally different tries, both reachable by
insertions, whose root FixedNode snapshots are equal — so equality of
snapshots does not entail a recursive field-by-field match of the trees,
contrary to the claim. -/
theorem fixedNode_eq_without_structural_eq :
    toFixedNode rootChar [] 0 (build [['a', 'b'], ['c', 'd']] Node.empty) =
      toFixedNode rootChar [] 0 (build [['a', 'c'], ['b', 'd']] Node.empty) ∧
    build [['a', 'b'], ['c', 'd']] Node.empty ≠
      build [['a', 'c'], ['b', 'd']] Node.empty := by
  refine ⟨by decide, ?_⟩
  intro h
  exact absurd (congrArg (fun n => keys n.children) h) (by decide)

/-- C6 amended: a FixedNode stores no children, and equality of two
FixedNode values holds iff their eight scalar fields all match; the
comparison is flat, not recursive, and equal snapshots do not imply equal
tries. -/
theorem fixedNode_eq_iff_fields (f1 f2 : FixedNode) :
    f1 = f2 ↔ (f1.c = f2.c ∧ f1.pre = f2.pre ∧ f1.depth = f2.depth ∧
      f1.is_word = f2.is_word ∧ f1.child_count = f2.child_count ∧
      f1.node_count = f2.node_count ∧ f1.word_count = f2.word_count ∧
      f1.height = f2.height) := by
  constructor
  · intro h
    subst h
    exact ⟨rfl, rfl, rfl, rfl, rfl, rfl, rfl, rfl⟩
  · intro h
    obtain ⟨h1, h2, h3, h4, h5, h6, h7, h8⟩ := h
    cases f1
    cases f2
    simp_all

/-- C7: after reset both counters are zero; record true increments only
hit_count and record false only miss_count, each by exactly one; and
building from a reset counter and an empty trie with distinct
single-character words produces at least as many misses as words and no
hits. -/
theorem counter_spec (chars : List Char) (hnd : chars.Nodup) :
    (CharGetCounter.reset.hit_count = 0 ∧ CharGetCounter.reset.miss_count = 0) ∧
    (∀ s : CharGetCounter,
      (s.record true).hit_count = s.hit_count + 1 ∧
      (s.record true).miss_count = s.miss_count ∧
      (s.record false).miss_count = s.miss_count + 1 ∧
      (s.record false).hit_count = s.hit_count) ∧
    ((buildCnt (chars.map fun c => [c]) Node.empty CharGetCounter.reset).2.hit_count = 0 ∧
      chars.length ≤
        (buildCnt (chars.map fun c => [c]) Node.empty CharGetCounter.reset).2.miss_count) := by
  refine ⟨⟨rfl, rfl⟩, ?_, ?_⟩
  · intro s
    exact ⟨by rw [record_true], by rw [record_true], by rw [record_false],
      by rw [record_false]⟩
  · have h := buildCnt_distinct_singles chars Node.empty CharGetCounter.reset hnd
      (fun c hc => rfl)
    rw [h]
    exact ⟨rfl, by simp⟩

/-- Witness for C7 at two distinct single-character words. -/
theorem counter_spec_witness :
    (['a', 'b'].Nodup) ∧
    ((buildCnt (['a', 'b'].map fun c => [c]) Node.empty CharGetCounter.reset).2.hit_count = 0 ∧
      (['a', 'b'] : List Char).length ≤
        (buildCnt (['a', 'b'].map fun c => [c]) Node.empty CharGetCounter.reset).2.miss_count) :=
  ⟨by decide, (counter_spec ['a', 'b'] (by decide)).2.2⟩

/-- C8: when some parallel worker terminates without delivering its subtrie,
the merge phase surfaces a build-level failure listing every affected
letter; and a build that reports success had every worker deliver, so no
letter's words are silently dropped. -/
theorem worker_failure_surfaced (results : List (Char × Option Node))
    (hfail : ∃ p ∈ results, p.2 = none) :
    (∃ fs, mergeResults results = Except.error fs ∧
      ∀ p ∈ results, p.2 = none → p.1 ∈ fs) ∧
    (∀ (rs : List (Char × Option Node)) (t : Node),
      mergeResults rs = Except.ok t → ∀ p ∈ rs, p.2 ≠ none) := by
  constructor
  · obtain ⟨p, hp, hp2⟩ := hfail
    have hpf : p ∈ results.filter (fun r => r.2.isNone) :=
      List.mem_filter.mpr ⟨hp, by simp [hp2]⟩
    have hne : ((results.filter (fun r => r.2.isNone)).map Prod.fst) ≠ [] := by
      intro hl
      have hm : p.1 ∈ (results.filter (fun r => r.2.isNone)).map Prod.fst :=
        List.mem_map.mpr ⟨p, hpf, rfl⟩
      rw [hl] at hm
      exact List.not_mem_nil _ hm
    have hie : ((results.filter (fun r => r.2.isNone)).map Prod.fst).isEmpty = false := by
      cases hmap : (results.filter (fun r => r.2.isNone)).map Prod.fst with
      | nil => exact absurd hmap hne
      | cons a l => rfl
    refine ⟨(results.filter (fun r => r.2.isNone)).map Prod.fst, ?_, ?_⟩
    · simp [mergeResults, hie]
    · intro q hq hq2
      exact List.mem_map.mpr ⟨q, List.mem_filter.mpr ⟨hq, by simp [hq2]⟩, rfl⟩
  · intro rs t hok p hp hnone
    have hpf : p ∈ rs.filter (fun r => r.2.isNone) :=
      List.mem_filter.mpr ⟨hp, by simp [hnone]⟩
    have hm : p.1 ∈ (rs.filter (fun r => r.2.isNone)).map Prod.fst :=
      List.mem_map.mpr ⟨p, hpf, rfl⟩
    cases hie : ((rs.filter (fun r => r.2.isNone)).map Prod.fst).isEmpty with
    | false => simp [mergeResults, hie] at hok
    | true =>
      rw [List.isEmpty_iff] at hie
      rw [hie] at hm
      exact List.not_mem_nil _ hm

/-- Witness for C8 with one failed worker for the letter a. -/
theorem worker_failure_surfaced_witness :
    (∃ p ∈ [((Char.ofNat 97), (none : Option Node))], p.2 = none) ∧
    (∃ fs, mergeResults [((Char.ofNat 97), (none : Option Node))] = Except.error fs ∧
      ∀ p ∈ [((Char.ofNat 97), (none : Option Node))], p.2 = none → p.1 ∈ fs) :=
  ⟨⟨((Char.ofNat 97), none), by simp, rfl⟩,
    (worker_failure_surfaced [((Char.ofNat 97), (none : Option Node))]
      ⟨((Char.ofNat 97), none), by simp, rfl⟩).1⟩

/-- C9: the word sequence the loaders consume is exactly the lines that are
non-empty after trimming, each trimmed and lowercased, in file order; blank
lines contribute nothing. -/
theorem make_vec_char_spec (lines : List (List Char)) :
    make_vec_char lines =
      ((lines.map trimChars).filter (fun l => !l.isEmpty)).map lowerChars := by
  have h := make_vec_char_go lines []
  simpa [make_vec_char] using h

/-- C10: words_from_file returns exactly the non-empty trimmed lines in
file order, preserving their original letter case, unlike the lowercased
sequence make_vec_char produces for the loaders. -/
theorem words_from_file_spec :
    (∀ lines : List (List Char), words_from_file lines =
      (lines.map trimChars).filter (fun l => !l.isEmpty)) ∧
    words_from_file [[' ', ' ', 'C', 'a', 't', ' ']] = [['C', 'a', 't']] ∧
    make_vec_char [[' ', ' ', 'C', 'a', 't', ' ']] = [['c', 'a', 't']] := by
  refine ⟨?_, by decide, by decide⟩
  intro lines
  have h := words_from_file_go lines []
  simpa [words_from_file] using h

end LetterTrie
